import Mathlib

/-!
Verification development for the gitindexer repository (Go).

Shallow embedding conventions:
* machine time (`time.Time`) is embedded as `Int` (Unix-style instants);
  `a.After(b)` becomes `b < a`;
* UUIDs are embedded as `Nat` identifiers;
* fallible operations return `Except`;
* the relational store (Postgres) is a record of row lists; SQL statements
  from `migrations/*.sql` and the sqlc query file are embedded as pure
  functions over that record.
-/

namespace GitIndexer

/-! ## Data model (internal/manager/models, internal/events) -/

/-- models.IntentStatus: the two values of the `intent_status` Postgres enum. -/
inductive IntentStatus where
  | pendingBroadCast
  | successBroadCast
deriving DecidableEq, Repr

/-- The string stored in the `intent_status` enum column for a status value. -/
def IntentStatus.toDbString : IntentStatus → String
  | .pendingBroadCast => "pending_broadcast"
  | .successBroadCast => "success_broadcast"

/-- The `intent_status` enum input conversion (migration 00001): only the two
declared labels are accepted, every other string is rejected by Postgres. -/
def parseIntentStatus : String → Option IntentStatus
  | "pending_broadcast" => some .pendingBroadCast
  | "success_broadcast" => some .successBroadCast
  | _ => none

/-- A row of the `intents` table (migration 00001). -/
structure IntentRow where
  id : Nat
  repositoryName : String
  startDate : Int
  status : IntentStatus
  isActive : Bool
  createdAt : Int
  updatedAt : Int
deriving DecidableEq, Repr

/-- models.IntentUpdate: the three optional fields plus the target id. -/
structure IntentUpdate where
  id : Nat
  status : Option IntentStatus := none
  isActive : Option Bool := none
  startDate : Option Int := none
deriving DecidableEq, Repr

/-- models.Author. -/
structure Author where
  id : Int
  name : String
  email : String
  username : String
deriving DecidableEq, Repr

/-- The part of models.Repository that the embedded operations read from a
commit: BatchSaveCommits and the harvester only consult `FullName` of the
nested `Repository` value of a commit. -/
structure CommitRepoRef where
  fullName : String
deriving DecidableEq, Repr

/-- models.Commit (the `Url` field is never populated by the harvester and is
passed as NULL by SaveCommit, so it is kept as an option). -/
structure Commit where
  hash : String
  author : Author
  message : String
  url : Option String := none
  createdAt : Int
  repository : CommitRepoRef
deriving DecidableEq, Repr

/-- A row of the `repositories` table (migration 00002). -/
structure RepoRow where
  id : Int
  watchers : Int
  stargazers : Int
  fullName : String
  createdAt : Int
  updatedAt : Int
  language : String
  forks : Int
deriving DecidableEq, Repr

/-- A row of the `authors` table (migration 00002). -/
structure AuthorRow where
  id : Int
  name : String
  email : String
  username : String
deriving DecidableEq, Repr

/-- A row of the `commits` table (migration 00002); `hash` is the primary
key. SaveCommit leaves `url` NULL. -/
structure CommitRow where
  hash : String
  authorId : Int
  message : String
  url : Option String := none
  createdAt : Int
  repositoryId : Int
deriving DecidableEq, Repr

/-- The relational store owned by the manager (tables of the two
migrations). -/
structure ManagerStore where
  intents : List IntentRow
  repositories : List RepoRow
  authors : List AuthorRow
  commits : List CommitRow
deriving DecidableEq, Repr

/-- events.IntentKind. -/
inductive IntentKind where
  | newIntent
  | updateIntent
  | cancelIntent
deriving DecidableEq, Repr

/-- events.IntentPayload. -/
structure IntentPayload where
  repoOwner : String
  repoName : String
  fromDate : Int
  untilDate : Int := 0
  id : Nat
deriving DecidableEq, Repr

/-- events.IntentCommand. -/
structure IntentCommand where
  kind : IntentKind
  intent : IntentPayload
deriving DecidableEq, Repr

/-- events.CommitsEventKind. -/
inductive CommitsEventKind where
  | newCommits
  | newRepoInfo
deriving DecidableEq, Repr

/-- events.CommitPayload. -/
structure CommitPayload where
  commits : List Commit
  repo : Option RepoRow := none
deriving DecidableEq, Repr

/-- events.CommitsCommand. -/
structure CommitsCommand where
  kind : CommitsEventKind
  payload : CommitPayload
deriving DecidableEq, Repr

/-! ## Distributed repository lock (cmd/monitor/main.go, acquireLock and
releaseLock)

The Redis cache is embedded as an association list from keys to absolute
expiry instants; an entry `(k, e)` is live at instant `now` while `now < e`.
`SetNX key value ttl` succeeds exactly when no live entry for the key
exists, storing an entry that expires at `now + ttl`; an expired entry
behaves as absent. -/

/-- The redis SetNX call performed by acquireLock: returns whether the caller
now owns the lock together with the updated cache. -/
def acquireLock (cache : List (String × Int)) (key : String) (ttl : Int)
    (now : Int) : Bool × List (String × Int) :=
  match cache.find? (fun e => e.1 = key) with
  | some e =>
      if now < e.2 then
        (false, cache)
      else
        (true, (key, now + ttl) :: cache.filter (fun e => e.1 ≠ key))
  | none => (true, (key, now + ttl) :: cache)

/-- The redis DEL call performed by releaseLock: unconditional delete. -/
def releaseLock (cache : List (String × Int)) (key : String) :
    List (String × Int) :=
  cache.filter (fun e => e.1 ≠ key)

/-! ## Intent validation (internal/manager/service.go) -/

/-- Database-level errors of the embedded store: a `:one` query finding no
row (pgx.ErrNoRows), and an invalid input value for the `intent_status`
enum. Infrastructure failures (connection loss etc.) are outside the pure
embedding. -/
inductive DbError where
  | noRows
  | invalidEnumValue
deriving DecidableEq, Repr

/-- The service-level error values of the manager package; `storeFailure`
stands for a wrapped store error (`fmt.Errorf(..., err)`), which is distinct
from every named sentinel error such as ErrIntentNotFound. -/
inductive SvcError where
  | invalidRepository
  | invalidStartDate
  | intentNotFound
  | storeFailure (e : DbError)
deriving DecidableEq, Repr

/-- The split of a character list at every occurrence of a separator
character; the result always has one more group than there are separator
occurrences, so it is never empty. -/
def splitChars (sep : Char) : List Char → List (List Char)
  | [] => [[]]
  | c :: cs =>
    if c = sep then [] :: splitChars sep cs
    else
      match splitChars sep cs with
      | g :: gs => (c :: g) :: gs
      | [] => [[c]]

/-- Go `strings.Split(s, sep)` for a one-character separator, as used with
the "/" separator throughout the manager: the empty string gives one empty
part, and n separator occurrences give n + 1 parts. -/
def stringsSplit (s : String) (sep : Char) : List String :=
  (splitChars sep s.data).map (fun cs => String.mk cs)

/-- validateRepositoryName: `strings.Split(name, "/")` must give exactly two
non-empty parts. -/
def validateRepositoryName (name : String) : Except SvcError Unit :=
  if (stringsSplit name '/').length ≠ 2 ∨
      (stringsSplit name '/').getD 0 "" = "" ∨
      (stringsSplit name '/').getD 1 "" = "" then
    .error .invalidRepository
  else
    .ok ()

/-- validateStartDate: `date.After(time.Now())` fails. -/
def validateStartDate (date : Int) (now : Int) : Except SvcError Unit :=
  if now < date then .error .invalidStartDate else .ok ()

/-! ## Postgres store (internal/manager/repository/postgres/repository.go
together with the sqlc query file and the migrations)

Database errors that the pure embedding can exhibit are the `DbError`
values declared above. -/

/-- pgStore.SaveIntent: INSERT into `intents`, `created_at` and `updated_at`
defaulting to CURRENT_TIMESTAMP, returning the inserted row. -/
def pgSaveIntent (st : ManagerStore) (fresh : IntentRow) (now : Int) :
    ManagerStore × IntentRow :=
  let row := { fresh with createdAt := now, updatedAt := now }
  ({ st with intents := st.intents ++ [row] }, row)

/-- pgStore.FindIntent: `SELECT ... WHERE id = $1` as a `:one` query; a
missing row surfaces as pgx.ErrNoRows. -/
def pgFindIntent (st : ManagerStore) (id : Nat) : Except DbError IntentRow :=
  match st.intents.find? (fun r => r.id = id) with
  | some r => .ok r
  | none => .error .noRows

/-- The sqlc parameter record built by pgStore.UpdateIntent. The generated
field for `status` is the string-based `sqlc.IntentStatus` and the field for
`is_active` is a plain `bool` (both visible from the assignments in
repository.go), so an absent optional field is sent as the Go zero value —
the empty string and `false` — and never as NULL. Only `start_date` uses the
nullable `pgtype.Timestamptz`. -/
structure UpdateIntentParams where
  id : Nat
  status : String
  isActive : Bool
  startDate : Option Int
deriving DecidableEq, Repr

/-- The parameter construction of pgStore.UpdateIntent (repository.go,
lines 109 to 130). -/
def buildUpdateIntentParams (update : IntentUpdate) : UpdateIntentParams :=
  { id := update.id
    status := match update.status with
      | some s => s.toDbString
      | none => ""
    isActive := match update.isActive with
      | some b => b
      | none => false
    startDate := update.startDate }

/-- The UpdateIntent SQL (sqlc query file): COALESCE keeps the old column
value only when the parameter is NULL; the status parameter must be a valid
`intent_status` label, and the row is selected by id (`:one`, so no row is
pgx.ErrNoRows). `updated_at` is set to CURRENT_TIMESTAMP. -/
def sqlUpdateIntent (st : ManagerStore) (p : UpdateIntentParams) (now : Int) :
    Except DbError (ManagerStore × IntentRow) :=
  match parseIntentStatus p.status with
  | none => .error .invalidEnumValue
  | some newStatus =>
    match st.intents.find? (fun r => r.id = p.id) with
    | none => .error .noRows
    | some row =>
      let row' := { row with
        status := newStatus
        isActive := p.isActive
        startDate := p.startDate.getD row.startDate
        updatedAt := now }
      .ok ({ st with
              intents := st.intents.map fun r =>
                if r.id = p.id then row' else r },
            row')

/-- pgStore.UpdateIntent: parameter building followed by the UpdateIntent
statement. -/
def pgUpdateIntent (st : ManagerStore) (update : IntentUpdate) (now : Int) :
    Except DbError (ManagerStore × IntentRow) :=
  sqlUpdateIntent st (buildUpdateIntentParams update) now

/-- pgStore.GetRepo: `SELECT * FROM repositories WHERE full_name = $1` as a
`:one` query. -/
def pgGetRepo (st : ManagerStore) (name : String) : Except DbError RepoRow :=
  match st.repositories.find? (fun r => r.fullName = name) with
  | some r => .ok r
  | none => .error .noRows

/-- One iteration of the loop inside pgStore.SaveManyCommit: GetAuthor by id,
SaveAuthor when absent, then SaveCommit with ON CONFLICT (hash) DO NOTHING.
All statements run inside one transaction; in the pure embedding the
transaction always commits because no statement below can fail. -/
def saveManyCommitStep (st : ManagerStore) (repoID : Int) (c : Commit) :
    ManagerStore :=
  let authors :=
    if st.authors.any (fun a => a.id = c.author.id) then st.authors
    else st.authors ++ [{ id := c.author.id, name := c.author.name,
                          email := c.author.email,
                          username := c.author.username }]
  let commits :=
    if st.commits.any (fun r => r.hash = c.hash) then st.commits
    else st.commits ++ [{ hash := c.hash, authorId := c.author.id,
                          message := c.message, url := none,
                          createdAt := c.createdAt,
                          repositoryId := repoID }]
  { st with authors := authors, commits := commits }

/-- pgStore.SaveManyCommit (repository.go, lines 242 to 286). -/
def saveManyCommit (st : ManagerStore) (repoID : Int) (commits : List Commit) :
    ManagerStore :=
  commits.foldl (fun s c => saveManyCommitStep s repoID c) st

/-! ## Manager service (the fuller service.go revision) -/

/-- events.NewIntentCommand: the constructor of an IntentCommand from a kind
and a payload, as pinned by its call sites in the service. -/
def mkIntentCommand (kind : IntentKind) (intent : IntentPayload) :
    IntentCommand :=
  { kind := kind, intent := intent }

/-- The IntentPayload the service builds from an intent row when it enqueues
a command: id, the two halves of the repository name, and the start date. -/
def payloadOfIntent (row : IntentRow) : IntentPayload :=
  { id := row.id
    repoOwner := (stringsSplit row.repositoryName '/').getD 0 ""
    repoName := (stringsSplit row.repositoryName '/').getD 1 ""
    fromDate := row.startDate }

/-- Service.CreateIntent: validate the repository name and the start date,
persist a fresh pending active intent, and enqueue a new_intent command.
The fresh UUID is passed in as `newId`; `Until` is set to `time.Now()`. -/
def createIntent (st : ManagerStore) (repoName : String) (startDate : Int)
    (now : Int) (newId : Nat) :
    Except SvcError (ManagerStore × IntentRow × IntentCommand) :=
  match validateRepositoryName repoName with
  | .error e => .error e
  | .ok _ =>
    match validateStartDate startDate now with
    | .error e => .error e
    | .ok _ =>
      let intent : IntentRow :=
        { status := .pendingBroadCast
          isActive := true
          id := newId
          repositoryName := repoName
          startDate := startDate
          createdAt := 0
          updatedAt := 0 }
      let (st', saved) := pgSaveIntent st intent now
      .ok (st', saved, mkIntentCommand .newIntent (payloadOfIntent saved))

/-- Service.UpdateIntentStatus (the activation toggle): find the intent,
flip `is_active` through the store, and enqueue a command whose kind is
computed from the activation transition. The `intent == nil` guard of the
source, which would yield ErrIntentNotFound, is unreachable against the
Postgres store because FindIntent reports a missing row as an error. -/
def updateIntentStatus (st : ManagerStore) (id : Nat) (now : Int) :
    Except SvcError (ManagerStore × IntentRow × IntentCommand) :=
  match pgFindIntent st id with
  | .error e => .error (.storeFailure e)
  | .ok intent =>
    let newStatus := !intent.isActive
    match pgUpdateIntent st { id := id, isActive := some newStatus } now with
    | .error e => .error (.storeFailure e)
    | .ok (st', update) =>
      let eventKind : IntentKind :=
        if intent.isActive && !newStatus then .cancelIntent
        else if !intent.isActive && newStatus then .newIntent
        else .updateIntent
      .ok (st', update, mkIntentCommand eventKind (payloadOfIntent update))

/-- Service.ResetIntentStartDate: validate the new date, push it through
UpdateIntent, and enqueue an update_intent command. -/
def resetIntentStartDate (st : ManagerStore) (id : Nat) (newDate : Int)
    (now : Int) : Except SvcError (ManagerStore × IntentCommand) :=
  match validateStartDate newDate now with
  | .error e => .error e
  | .ok _ =>
    match pgUpdateIntent st { id := id, startDate := some newDate } now with
    | .error e => .error (.storeFailure e)
    | .ok (st', intent) =>
      .ok (st', mkIntentCommand .updateIntent (payloadOfIntent intent))

/-- Lexicographic at-most comparison of character lists by scalar value,
the order Go uses for strings. -/
def listLe : List Char → List Char → Bool
  | [], _ => true
  | _ :: _, [] => false
  | a :: as, b :: bs =>
    if a.toNat < b.toNat then true
    else if b.toNat < a.toNat then false
    else listLe as bs

/-- Go string comparison `s <= t` (lexicographic; byte order and scalar
order agree on the ASCII repository names at hand). -/
def goStringLe (s t : String) : Bool :=
  listLe s.data t.data

/-- The loop of Service.BatchSaveCommits over the sorted batch. The boundary
condition fires when the current commit belongs to another repository than
the group being accumulated, or when it is the last commit; the repository
looked up at a boundary is that of the boundary commit itself, and a failed
lookup aborts the whole call (`return` with an error), keeping whatever the
earlier iterations already persisted. The Bool of the result is `true` when
the call returned nil. -/
def batchSaveLoop (st : ManagerStore) (currentName : String)
    (currentGroup : List Commit) : List Commit → ManagerStore × Bool
  | [] => (st, true)
  | c :: rest =>
    let isLast := rest = []
    if c.repository.fullName ≠ currentName ∨ isLast then
      let group := if isLast then currentGroup ++ [c] else currentGroup
      match pgGetRepo st c.repository.fullName with
      | .error _ => (st, false)
      | .ok repo =>
        batchSaveLoop (saveManyCommit st repo.id group)
          c.repository.fullName [c] rest
    else
      batchSaveLoop st currentName (currentGroup ++ [c]) rest

/-- Service.BatchSaveCommits (part of the commit ingestion path): an empty
batch is a no-op; otherwise the batch is sorted by repository full name
(sort.Slice with a less-than comparison; insertion sort is one such
comparison sort) and the loop above groups and persists it. -/
def batchSaveCommits (st : ManagerStore) (commits : List Commit) :
    ManagerStore × Bool :=
  if commits.isEmpty then (st, true)
  else
    match commits.insertionSort
      (fun a b =>
        goStringLe a.repository.fullName b.repository.fullName = true) with
    | [] => (st, true)
    | c :: rest => batchSaveLoop st c.repository.fullName [] (c :: rest)

/-! ## Broadcast loop (Service.StartBroadCast)

The loop drains the internal intents channel. A drained, closed channel and
a fired cancellation context are the two select arms of the source; the
channel is embedded as a list of inputs, where the end of the list is the
closed channel and an explicit input marks the cancellation arm firing.
Publishing to the broker is external I/O, so each message input carries the
outcome its publish attempt would have; `json.Marshal` of an IntentCommand
cannot fail and is dropped from the embedding. -/

/-- One input observed by the broadcast loop. -/
inductive BroadcastInput where
  | msg (cmd : IntentCommand) (publishOk : Bool)
  | cancel
deriving DecidableEq, Repr

/-- How the broadcast loop exited. -/
inductive BroadcastExit where
  | channelClosed
  | cancelled
  | storeErr (e : DbError)
deriving DecidableEq, Repr

/-- The state in which the broadcast loop stopped. -/
structure BroadcastResult where
  exit : BroadcastExit
  store : ManagerStore
  published : List IntentCommand
  remaining : List BroadcastInput
deriving DecidableEq, Repr

/-- Service.StartBroadCast: on a received command, a failed publish is
logged and the loop continues with the store untouched; a successful publish
is followed by UpdateIntent setting the status to success_broadcast, and an
error from that update makes the loop return it. A closed channel returns
nil and the cancellation arm returns ctx.Err(). -/
def startBroadcast (st : ManagerStore) (now : Int) :
    List BroadcastInput → List IntentCommand → BroadcastResult
  | [], pub => ⟨.channelClosed, st, pub, []⟩
  | .cancel :: rest, pub => ⟨.cancelled, st, pub, rest⟩
  | .msg cmd pOk :: rest, pub =>
    if pOk then
      match pgUpdateIntent st
          { id := cmd.intent.id, status := some .successBroadCast } now with
      | .error e => ⟨.storeErr e, st, pub ++ [cmd], rest⟩
      | .ok (st', _) => startBroadcast st' now rest (pub ++ [cmd])
    else
      startBroadcast st now rest pub

/-! ## Harvester commit batching (cmd/monitor/main.go, the revision with
commitsResolver)

The commits channel and the timer are embedded as a list of events: a
received CommitResult, an idle-timeout firing, the channel closing, and the
context being cancelled. Publishing a batch builds a new_commits
CommitsCommand; the publish itself (publishWithRetry) does not change the
resolver state, so the embedding records the commands handed to it. -/

/-- The batch size constant of cmd/monitor/main.go. -/
def batchSize : Nat := 100

/-- CommitResult: the repository full name together with the fields of the
fetched commit that publishCommitsBatch reads. -/
structure CommitResult where
  repository : String
  sha : String
  message : String
  authorName : String
  authorEmail : String
  authorDate : Int
deriving DecidableEq, Repr

/-- The models.Commit built from one CommitResult by publishCommitsBatch. -/
def commitOfResult (r : CommitResult) : Commit :=
  { hash := r.sha
    message := r.message
    author := { id := 0, name := r.authorName, email := r.authorEmail,
                username := "" }
    createdAt := r.authorDate
    repository := { fullName := r.repository } }

/-- publishCommitsBatch: the new_commits CommitsCommand built from a batch
of results. -/
def publishCommitsBatch (results : List CommitResult) : CommitsCommand :=
  { kind := .newCommits
    payload := { commits := results.map commitOfResult } }

/-- One event observed by the commits resolver. -/
inductive ResolverEvent where
  | recv (c : CommitResult)
  | timeout
  | close
  | cancel
deriving DecidableEq, Repr

/-- commitsResolver: a received commit is appended to the batch, which is
flushed when it reaches batchSize; the idle timeout flushes a non-empty
batch; a closed channel and a cancelled context flush a non-empty batch and
return. The result is the list of published commands together with the
pending batch when the events ran out with the loop still live (flushing
leaves stale items in the dead local slice only after the loop returned, so
the pending batch is empty then). -/
def commitsResolver :
    List ResolverEvent → List CommitResult → List CommitsCommand →
    List CommitsCommand × List CommitResult
  | [], batch, pub => (pub, batch)
  | .recv c :: rest, batch, pub =>
    let b := batch ++ [c]
    if b.length = batchSize then
      commitsResolver rest [] (pub ++ [publishCommitsBatch b])
    else
      commitsResolver rest b pub
  | .timeout :: rest, batch, pub =>
    if batch.isEmpty then
      commitsResolver rest batch pub
    else
      commitsResolver rest [] (pub ++ [publishCommitsBatch batch])
  | .close :: _, batch, pub =>
    (if batch.isEmpty then pub else pub ++ [publishCommitsBatch batch], [])
  | .cancel :: _, batch, pub =>
    (if batch.isEmpty then pub else pub ++ [publishCommitsBatch batch], [])

/-! ## Derived predicates and concrete sample data used by the theorems -/

/-- The number of rows of the `commits` table carrying a given hash. -/
def countHash (st : ManagerStore) (h : String) : Nat :=
  (st.commits.filter (fun r => r.hash = h)).length

/-- The author lookup performed by SaveManyCommit succeeds for the commit. -/
def authorPresent (st : ManagerStore) (c : Commit) : Prop :=
  st.authors.any (fun a => a.id = c.author.id) = true

/-- A row with the commit hash already exists, so SaveCommit is a no-op. -/
def hashPresent (st : ManagerStore) (c : Commit) : Prop :=
  st.commits.any (fun r => r.hash = c.hash) = true

/-- A store with no rows at all. -/
def emptyStore : ManagerStore :=
  { intents := [], repositories := [], authors := [], commits := [] }

/-- A pending, active intent as persisted by CreateIntent. -/
def sampleIntent : IntentRow :=
  { id := 1
    repositoryName := "octocat/hello"
    startDate := 5
    status := .pendingBroadCast
    isActive := true
    createdAt := 0
    updatedAt := 0 }

/-- A store holding just `sampleIntent`. -/
def sampleStore : ManagerStore :=
  { intents := [sampleIntent], repositories := [], authors := [],
    commits := [] }

/-- A repository row for the known repository of the C3 scenario. -/
def repoAlice : RepoRow :=
  { id := 1, watchers := 0, stargazers := 0, fullName := "alice/augur",
    createdAt := 0, updatedAt := 0, language := "Go", forks := 0 }

/-- A store that knows `alice/augur` but not `bob/briar`. -/
def storeAlice : ManagerStore :=
  { intents := [], repositories := [repoAlice], authors := [], commits := [] }

/-- A sample commit author. -/
def sampleAuthor : Author :=
  { id := 10, name := "Ada", email := "ada@example.com", username := "ada" }

/-- A commit of the known repository `alice/augur`. -/
def commitA1 : Commit :=
  { hash := "h1", author := sampleAuthor, message := "m1", createdAt := 1,
    repository := { fullName := "alice/augur" } }

/-- First commit of the unknown repository `bob/briar`. -/
def commitB1 : Commit :=
  { hash := "h2", author := sampleAuthor, message := "m2", createdAt := 2,
    repository := { fullName := "bob/briar" } }

/-- Second commit of the unknown repository `bob/briar`. -/
def commitB2 : Commit :=
  { hash := "h3", author := sampleAuthor, message := "m3", createdAt := 3,
    repository := { fullName := "bob/briar" } }

/-- A harvested commit result for the resolver theorems. -/
def sampleResult : CommitResult :=
  { repository := "alice/augur", sha := "h1", message := "m",
    authorName := "Ada", authorEmail := "ada@example.com", authorDate := 1 }

/-- An intent command whose intent id is absent from `emptyStore`. -/
def strayCommand : IntentCommand :=
  mkIntentCommand .newIntent
    { id := 7, repoOwner := "octocat", repoName := "hello", fromDate := 5 }

/-- The row produced by a status-only UpdateIntent against a found row: the
status is set, `is_active` receives the zero-valued parameter false, the
start date keeps its value (NULL parameter), and `updated_at` advances. -/
def statusOnlyUpdatedRow (row : IntentRow) (s : IntentStatus) (now : Int) :
    IntentRow :=
  { row with
    status := s
    isActive := false
    startDate := row.startDate
    updatedAt := now }

/-- The store after replacing the row with the given id. -/
def replaceIntentRow (st : ManagerStore) (id : Nat) (row' : IntentRow) :
    ManagerStore :=
  { st with intents := st.intents.map fun r => if r.id = id then row' else r }

/-! ## Theorems -/

/-- A successful acquire leaves the fresh entry at the head of the cache. -/
theorem acquireLock_true_shape (cache : List (String × Int)) (key : String)
    (ttl now : Int) (c' : List (String × Int))
    (h : acquireLock cache key ttl now = (true, c')) :
    ∃ tail, c' = (key, now + ttl) :: tail := by
  unfold acquireLock at h
  cases hf : cache.find? (fun e => e.1 = key) with
  | some e =>
    rw [hf] at h
    by_cases hlt : now < e.2
    · simp [hlt, Prod.ext_iff] at h
    · simp [hlt, Prod.ext_iff] at h
      exact ⟨_, h.symm⟩
  | none =>
    rw [hf] at h
    simp [Prod.ext_iff] at h
    exact ⟨_, h.symm⟩

/-- C2: acquireLock is an atomic set-if-absent with TTL. While the key holds
a live (unexpired) entry the call returns false and leaves the cache alone;
once the entry has expired the call returns true; and after a successful
acquire at instant `now` with time-to-live `ttl`, every further acquire
attempt on the same key strictly before `now + ttl` returns false, so at
most one holder exists per key at any instant and a crashed holder is
unblocked by expiry rather than deadlocking. -/
theorem acquireLock_setIfAbsent_ttl :
    (∀ (cache : List (String × Int)) (key : String) (ttl now : Int)
       (e : String × Int),
       cache.find? (fun x => x.1 = key) = some e → now < e.2 →
       acquireLock cache key ttl now = (false, cache)) ∧
    (∀ (cache : List (String × Int)) (key : String) (ttl now : Int)
       (e : String × Int),
       cache.find? (fun x => x.1 = key) = some e → e.2 ≤ now →
       (acquireLock cache key ttl now).1 = true) ∧
    (∀ (cache : List (String × Int)) (key : String) (ttl ttl2 now now2 : Int)
       (c' : List (String × Int)),
       acquireLock cache key ttl now = (true, c') →
       now ≤ now2 → now2 < now + ttl →
       acquireLock c' key ttl2 now2 = (false, c')) := by
  refine ⟨?_, ?_, ?_⟩
  · intro cache key ttl now e hf hlt
    unfold acquireLock
    rw [hf]
    simp [hlt]
  · intro cache key ttl now e hf hle
    unfold acquireLock
    rw [hf]
    simp [not_lt.mpr hle]
  · intro cache key ttl ttl2 now now2 c' h _ hlt
    obtain ⟨tail, rfl⟩ := acquireLock_true_shape cache key ttl now _ h
    unfold acquireLock
    have hfind :
        (((key, now + ttl) :: tail).find? (fun e => e.1 = key)) =
          some (key, now + ttl) := by
      simp [List.find?]
    rw [hfind]
    simp [hlt]

/-- Witness for C2 at a concrete cache: key held with expiry 10 denies at
instant 3, grants at instant 12, and a fresh acquire at instant 0 with
ttl 10 blocks a second acquire at instant 3. -/
theorem acquireLock_setIfAbsent_ttl_witness :
    acquireLock [("lock:octocat.hello", 10)] "lock:octocat.hello" 10 3 =
      (false, [("lock:octocat.hello", 10)]) ∧
    (acquireLock [("lock:octocat.hello", 10)] "lock:octocat.hello" 10 12).1 =
      true ∧
    acquireLock [("lock:octocat.hello", 10)] "lock:octocat.hello" 10 3 =
      (false, [("lock:octocat.hello", 10)]) := by
  refine ⟨?_, ?_, ?_⟩
  · exact acquireLock_setIfAbsent_ttl.1 _ _ 10 3 ("lock:octocat.hello", 10)
      (by decide) (by decide)
  · exact acquireLock_setIfAbsent_ttl.2.1 _ _ 10 12 ("lock:octocat.hello", 10)
      (by decide) (by decide)
  · exact acquireLock_setIfAbsent_ttl.2.2 [] "lock:octocat.hello" 10 10 0 3 _
      (by decide) (by decide) (by decide)

/-- C7: a repository identifier that does not split on the separator into
exactly two non-empty segments makes CreateIntent fail with the
InvalidRepository error; the validation runs before any store call, so
nothing is persisted (the error result carries no store). -/
theorem createIntent_invalidRepository :
    ∀ (st : ManagerStore) (name : String) (startDate now : Int) (newId : Nat),
      ((stringsSplit name '/').length ≠ 2 ∨
        (stringsSplit name '/').getD 0 "" = "" ∨
        (stringsSplit name '/').getD 1 "" = "") →
      createIntent st name startDate now newId = .error .invalidRepository := by
  intro st name startDate now newId h
  simp only [createIntent, validateRepositoryName]
  rw [if_pos h]

/-- Witness for C7: three malformed identifiers, one per failure shape. -/
theorem createIntent_invalidRepository_witness :
    createIntent emptyStore "nomatch" 0 0 1 = .error .invalidRepository ∧
    createIntent emptyStore "a/b/c" 0 0 1 = .error .invalidRepository ∧
    createIntent emptyStore "/name" 0 0 1 = .error .invalidRepository := by
  refine ⟨?_, ?_, ?_⟩
  · exact createIntent_invalidRepository emptyStore "nomatch" 0 0 1 (by decide)
  · exact createIntent_invalidRepository emptyStore "a/b/c" 0 0 1 (by decide)
  · exact createIntent_invalidRepository emptyStore "/name" 0 0 1 (by decide)

/-- C8: a start date strictly after the current instant makes CreateIntent
(on a well-formed repository name) and ResetIntentStartDate fail with the
InvalidStartDate error; in both operations the validation precedes every
store call, so nothing is persisted. -/
theorem startDate_future_rejected :
    (∀ (st : ManagerStore) (name : String) (startDate now : Int)
       (newId : Nat),
       validateRepositoryName name = .ok () → now < startDate →
       createIntent st name startDate now newId = .error .invalidStartDate) ∧
    (∀ (st : ManagerStore) (id : Nat) (newDate now : Int),
       now < newDate →
       resetIntentStartDate st id newDate now = .error .invalidStartDate) := by
  constructor
  · intro st name startDate now newId hname hfut
    simp [createIntent, hname, validateStartDate, hfut]
  · intro st id newDate now hfut
    simp [resetIntentStartDate, validateStartDate, hfut]

/-- Witness for C8 at concrete inputs: instant 3 with start date 9. -/
theorem startDate_future_rejected_witness :
    createIntent emptyStore "octocat/hello" 9 3 1 = .error .invalidStartDate ∧
    resetIntentStartDate emptyStore 1 9 3 = .error .invalidStartDate := by
  constructor
  · exact startDate_future_rejected.1 emptyStore "octocat/hello" 9 3 1
      (by rfl) (by decide)
  · exact startDate_future_rejected.2 emptyStore 1 9 3 (by decide)

/-- The enum label written for a status round-trips through the enum input
conversion. -/
theorem parseIntentStatus_toDbString (s : IntentStatus) :
    parseIntentStatus s.toDbString = some s := by
  cases s <;> rfl

/-- When the target id exists and a status is provided, UpdateIntent
succeeds, and the update preserves the set of intent ids. -/
theorem pgUpdateIntent_status_ok (st : ManagerStore) (id : Nat)
    (s : IntentStatus) (now : Int) (h : ∃ r ∈ st.intents, r.id = id) :
    ∃ st' row',
      pgUpdateIntent st { id := id, status := some s } now = .ok (st', row') ∧
      ∀ id0, (∃ r ∈ st.intents, r.id = id0) →
        (∃ r ∈ st'.intents, r.id = id0) := by
  obtain ⟨row, hfind⟩ :
      ∃ row, st.intents.find? (fun r => r.id = id) = some row := by
    have : (st.intents.find? (fun r => r.id = id)).isSome := by
      rw [List.find?_isSome]
      obtain ⟨r, hr, hid⟩ := h
      exact ⟨r, hr, by simp [hid]⟩
    exact Option.isSome_iff_exists.mp this
  have hrowid : row.id = id := by
    have := List.find?_some hfind
    simpa using this
  refine ⟨replaceIntentRow st id (statusOnlyUpdatedRow row s now),
    statusOnlyUpdatedRow row s now, ?_, ?_⟩
  · unfold pgUpdateIntent sqlUpdateIntent buildUpdateIntentParams
      replaceIntentRow statusOnlyUpdatedRow
    simp only [parseIntentStatus_toDbString]
    rw [hfind]
    rfl
  · intro id0 hex
    obtain ⟨r, hr, hid⟩ := hex
    refine ⟨(fun r => if r.id = id then statusOnlyUpdatedRow row s now else r)
        r, ?_, ?_⟩
    · exact List.mem_map_of_mem _ hr
    · by_cases hc : r.id = id
      · simp only [if_pos hc]
        show row.id = id0
        rw [hrowid, ← hc, hid]
      · simp only [if_neg hc]
        exact hid

/-- C4 (code bug): a successful broadcast publish is followed by a store
update that is meant to change only the status. Against the Postgres store
the absent optional fields are sent as Go zero values rather than NULL, so
the COALESCE in the UpdateIntent statement never sees NULL for `is_active`
and the row's `is_active` flag is forced to false. The repository name and
the start date are indeed unchanged, but the `is_active` flag of the
initially active intent flips, contradicting the frame claim. -/
theorem broadcast_success_update_sets_isActive_false :
    (startBroadcast sampleStore 9
        [.msg (mkIntentCommand .newIntent (payloadOfIntent sampleIntent))
           true] []).store.intents =
      [{ id := 1, repositoryName := "octocat/hello", startDate := 5,
         status := .successBroadCast, isActive := false, createdAt := 0,
         updatedAt := 9 }] ∧
    sampleIntent.isActive = true := by
  constructor
  · rfl
  · rfl

/-- C6 (code bug): UpdateIntentStatus never completes a toggle against the
Postgres store. The activation-only update carries no status, the wrapper
sends the empty string for the `intent_status` enum, and Postgres rejects
it, so an existing intent yields a wrapped store error instead of a toggle
and an emitted command; a missing id yields the wrapped no-rows error of
FindIntent instead of the ErrIntentNotFound sentinel. -/
theorem updateIntentStatus_store_rejects :
    updateIntentStatus sampleStore 1 9 =
      .error (.storeFailure .invalidEnumValue) ∧
    updateIntentStatus sampleStore 2 9 =
      .error (.storeFailure .noRows) := by
  constructor
  · rfl
  · rfl

/-- C5 counterexample: the broadcast loop also exits when the status update
after a successful publish fails. With an intent id absent from the store,
the first message publishes, the update fails with the no-rows error, and
the loop returns that error with the second message still unconsumed — the
loop terminated although its context was not cancelled and its channel was
neither closed nor drained. -/
theorem startBroadcast_storeErr_exit :
    startBroadcast emptyStore 9
        [.msg strayCommand true, .msg strayCommand true] [] =
      ⟨.storeErr .noRows, emptyStore, [strayCommand],
        [.msg strayCommand true]⟩ := by
  rfl

/-- C5 amended: a failed publish is logged and the loop continues with the
store and the published list untouched (the intent keeps its pending
status); and the loop terminates on cancellation, on a closed and drained
channel, or additionally when the status update after a successful publish
fails — in particular, when every published command refers to an intent id
present in the store, only the two claimed exit conditions occur. -/
theorem startBroadcast_exit_conditions :
    (∀ (st : ManagerStore) (now : Int) (cmd : IntentCommand)
       (rest : List BroadcastInput) (pub : List IntentCommand),
       startBroadcast st now (.msg cmd false :: rest) pub =
         startBroadcast st now rest pub) ∧
    (∀ (st : ManagerStore) (now : Int) (inputs : List BroadcastInput)
       (pub : List IntentCommand),
       (∀ (cmd : IntentCommand) (pOk : Bool),
          BroadcastInput.msg cmd pOk ∈ inputs →
          ∃ r ∈ st.intents, r.id = cmd.intent.id) →
       (startBroadcast st now inputs pub).exit = .channelClosed ∨
       (startBroadcast st now inputs pub).exit = .cancelled) := by
  constructor
  · intro st now cmd rest pub
    simp [startBroadcast]
  · intro st now inputs
    induction inputs generalizing st with
    | nil =>
      intro pub _
      left
      rfl
    | cons i rest ih =>
      intro pub h
      cases i with
      | cancel =>
        right
        rfl
      | msg cmd pOk =>
        cases pOk with
        | false =>
          have : startBroadcast st now (.msg cmd false :: rest) pub =
              startBroadcast st now rest pub := by
            simp [startBroadcast]
          rw [this]
          exact ih st pub (fun c p hm => h c p (List.mem_cons_of_mem _ hm))
        | true =>
          obtain ⟨st', row', heq, hpres⟩ :=
            pgUpdateIntent_status_ok st cmd.intent.id .successBroadCast now
              (h cmd true (List.mem_cons_self _ _))
          have : startBroadcast st now (.msg cmd true :: rest) pub =
              startBroadcast st' now rest (pub ++ [cmd]) := by
            simp [startBroadcast, heq]
          rw [this]
          exact ih st' (pub ++ [cmd])
            (fun c p hm =>
              hpres c.intent.id (h c p (List.mem_cons_of_mem _ hm)))

/-- Witness for C5 amended at concrete inputs: a failed publish leaves the
run unchanged, and a run over present intent ids ends with the closed
channel exit. -/
theorem startBroadcast_exit_conditions_witness :
    startBroadcast emptyStore 9 [.msg strayCommand false] [] =
      startBroadcast emptyStore 9 [] [] ∧
    ((startBroadcast sampleStore 9
        [.msg (mkIntentCommand .newIntent (payloadOfIntent sampleIntent))
           true] []).exit = .channelClosed ∨
     (startBroadcast sampleStore 9
        [.msg (mkIntentCommand .newIntent (payloadOfIntent sampleIntent))
           true] []).exit = .cancelled) := by
  constructor
  · exact startBroadcast_exit_conditions.1 emptyStore 9 strayCommand [] []
  · exact startBroadcast_exit_conditions.2 sampleStore 9
      [.msg (mkIntentCommand .newIntent (payloadOfIntent sampleIntent)) true]
      [] (by intro cmd pOk hm; simp at hm; rw [hm.1]; exact ⟨sampleIntent, by simp [sampleStore], by decide⟩)

/-- The character-list comparison is reflexive. -/
theorem listLe_refl : ∀ l : List Char, listLe l l = true := by
  intro l
  induction l with
  | nil => rfl
  | cons a as ih => simp [listLe, ih]

/-- Go string comparison is reflexive. -/
theorem goStringLe_refl (s : String) : goStringLe s s = true :=
  listLe_refl s.data

/-- A list whose commits all carry the same repository name is pairwise
ordered under the full-name comparison. -/
theorem pairwise_le_of_const_name (l : List Commit) (n : String)
    (h : ∀ c ∈ l, c.repository.fullName = n) :
    l.Pairwise
      (fun a b =>
        goStringLe a.repository.fullName b.repository.fullName = true) := by
  induction l with
  | nil => exact List.Pairwise.nil
  | cons c cs ih =>
    refine List.Pairwise.cons ?_ (ih ?_)
    · intro b hb
      rw [h c (List.mem_cons_self c cs), h b (List.mem_cons_of_mem _ hb)]
      exact goStringLe_refl n
    · intro c' hc'
      exact h c' (List.mem_cons_of_mem _ hc')

/-- The BatchSaveCommits loop walks past a prefix of commits bearing the
current repository name, only accumulating them into the pending group. -/
theorem batchSaveLoop_same_name_run (st : ManagerStore) (n : String)
    (b : Commit) (bs' : List Commit) :
    ∀ (as g : List Commit), (∀ c ∈ as, c.repository.fullName = n) →
      batchSaveLoop st n g (as ++ b :: bs') =
        batchSaveLoop st n (g ++ as) (b :: bs') := by
  intro as
  induction as with
  | nil =>
    intro g _
    simp
  | cons a as' ih =>
    intro g h
    have hname : a.repository.fullName = n := h a (List.mem_cons_self a as')
    have hcons : ((a :: as') ++ b :: bs') = a :: (as' ++ b :: bs') := by simp
    rw [hcons]
    have hstep : batchSaveLoop st n g (a :: (as' ++ b :: bs')) =
        batchSaveLoop st n (g ++ [a]) (as' ++ b :: bs') := by
      simp [batchSaveLoop, hname, List.append_eq_nil]
    rw [hstep, ih (g ++ [a]) (fun c hc => h c (List.mem_cons_of_mem _ hc))]
    simp

/-- At a boundary commit whose repository is unknown to the store, the
BatchSaveCommits loop aborts with an error, leaving the store exactly as it
was: the pending group is dropped along with everything that follows. -/
theorem batchSaveLoop_boundary_unknown (st : ManagerStore) (n : String)
    (g : List Commit) (b : Commit) (bs' : List Commit) (bName : String)
    (hb : b.repository.fullName = bName) (hne : bName ≠ n)
    (hunknown : ∀ r ∈ st.repositories, r.fullName ≠ bName) :
    batchSaveLoop st n g (b :: bs') = (st, false) := by
  have hget : pgGetRepo st bName = .error .noRows := by
    unfold pgGetRepo
    rw [List.find?_eq_none.mpr (fun r hr => by simp [hunknown r hr])]
  simp [batchSaveLoop, hb, hne, hget]

/-- C3 counterexample: a batch with one commit of the known repository
`alice/augur` followed by two commits of the unknown repository `bob/briar`
makes BatchSaveCommits fail and persist nothing at all — the sibling group
of the known repository is dropped together with the failing group, so the
unknown repository does not fail "for that group only". -/
theorem batchSaveCommits_drops_known_sibling :
    batchSaveCommits storeAlice [commitA1, commitB1, commitB2] =
      (storeAlice, false) ∧
    (∃ r ∈ storeAlice.repositories,
       r.fullName = commitA1.repository.fullName) := by
  constructor
  · rfl
  · exact ⟨repoAlice, by simp [storeAlice], by rfl⟩

/-- C3 amended: per-group persistence is all-or-nothing (SaveManyCommit runs
in one transaction) and already-flushed groups are not rolled back, but a
commit group referencing an unknown repository does not fail in isolation:
the first failed repository lookup aborts the whole BatchSaveCommits call.
In particular, for a sorted batch made of a known repository group followed
by an unknown repository group, the call returns an error and persists
nothing — the known sibling group is dropped too, because each flush
boundary looks up the repository of the boundary commit, which belongs to
the next group. -/
theorem batchSaveCommits_unknown_repo_aborts :
    ∀ (st : ManagerStore) (as bs : List Commit) (aName bName : String),
      as ≠ [] → bs ≠ [] →
      (∀ c ∈ as, c.repository.fullName = aName) →
      (∀ c ∈ bs, c.repository.fullName = bName) →
      goStringLe aName bName = true → aName ≠ bName →
      (∃ r ∈ st.repositories, r.fullName = aName) →
      (∀ r ∈ st.repositories, r.fullName ≠ bName) →
      batchSaveCommits st (as ++ bs) = (st, false) := by
  intro st as bs aName bName hane hbne has hbs hle hne _ hunknown
  obtain ⟨a, as', rfl⟩ : ∃ a as', as = a :: as' := by
    cases as with
    | nil => exact absurd rfl hane
    | cons a as' => exact ⟨a, as', rfl⟩
  obtain ⟨b, bs', rfl⟩ : ∃ b bs', bs = b :: bs' := by
    cases bs with
    | nil => exact absurd rfl hbne
    | cons b bs' => exact ⟨b, bs', rfl⟩
  have hsorted :
      ((a :: as') ++ b :: bs').insertionSort
          (fun x y =>
            goStringLe x.repository.fullName y.repository.fullName = true) =
        (a :: as') ++ b :: bs' := by
    refine List.Sorted.insertionSort_eq ?_
    refine List.pairwise_append.mpr
      ⟨pairwise_le_of_const_name _ aName has,
       pairwise_le_of_const_name _ bName hbs, ?_⟩
    intro x hx y hy
    rw [has x hx, hbs y hy]
    exact hle
  have hempty : ((a :: as') ++ b :: bs').isEmpty = false := by simp
  have hhead : a.repository.fullName = aName :=
    has a (List.mem_cons_self a as')
  show batchSaveCommits st ((a :: as') ++ b :: bs') = (st, false)
  unfold batchSaveCommits
  rw [hempty, hsorted]
  simp only [Bool.false_eq_true, if_false, List.cons_append]
  rw [hhead]
  have hpre := batchSaveLoop_same_name_run st aName b bs' (a :: as') []
    has
  rw [List.cons_append] at hpre
  rw [hpre, List.nil_append]
  exact batchSaveLoop_boundary_unknown st aName (a :: as') b bs' bName
    (hbs b (List.mem_cons_self b bs')) (Ne.symm hne) hunknown

/-- Witness for C3 amended: the two-group instance with the known repository
`alice/augur` preceding the unknown `bob/briar`. -/
theorem batchSaveCommits_unknown_repo_aborts_witness :
    batchSaveCommits storeAlice ([commitA1] ++ [commitB1]) =
      (storeAlice, false) := by
  refine batchSaveCommits_unknown_repo_aborts storeAlice [commitA1]
    [commitB1] "alice/augur" "bob/briar" ?_ ?_ ?_ ?_ ?_ ?_ ?_ ?_
  · decide
  · decide
  · intro c hc
    simp at hc
    rw [hc]
    rfl
  · intro c hc
    simp at hc
    rw [hc]
    rfl
  · decide
  · decide
  · exact ⟨repoAlice, by simp [storeAlice], by rfl⟩
  · intro r hr
    simp [storeAlice] at hr
    rw [hr]
    decide

/-- Appending rows never removes a matching author row. -/
theorem authorPresent_step (st : ManagerStore) (rid : Int) (c c' : Commit)
    (h : authorPresent st c') :
    authorPresent (saveManyCommitStep st rid c) c' := by
  unfold authorPresent saveManyCommitStep at *
  by_cases hc : st.authors.any (fun a => a.id = c.author.id) = true
  · simpa [hc] using h
  · simp only [if_neg hc]
    simp [List.any_append, h]

/-- Appending rows never removes a matching commit row. -/
theorem hashPresent_step (st : ManagerStore) (rid : Int) (c c' : Commit)
    (h : hashPresent st c') :
    hashPresent (saveManyCommitStep st rid c) c' := by
  unfold hashPresent saveManyCommitStep at *
  by_cases hc : st.commits.any (fun r => r.hash = c.hash) = true
  · simpa [hc] using h
  · simp only [if_neg hc]
    simp [List.any_append, h]

/-- After its own step, a commit has its author and its hash present. -/
theorem present_self_step (st : ManagerStore) (rid : Int) (c : Commit) :
    authorPresent (saveManyCommitStep st rid c) c ∧
    hashPresent (saveManyCommitStep st rid c) c := by
  constructor
  · unfold authorPresent saveManyCommitStep
    by_cases hc : st.authors.any (fun a => a.id = c.author.id) = true
    · simp [hc]
    · simp only [if_neg hc]
      simp [List.any_append]
  · unfold hashPresent saveManyCommitStep
    by_cases hc : st.commits.any (fun r => r.hash = c.hash) = true
    · simp [hc]
    · simp only [if_neg hc]
      simp [List.any_append]

/-- Presence survives a whole SaveManyCommit run. -/
theorem present_saveManyCommit_mono (rid : Int) :
    ∀ (cs : List Commit) (st : ManagerStore) (c' : Commit),
      authorPresent st c' → hashPresent st c' →
      authorPresent (saveManyCommit st rid cs) c' ∧
      hashPresent (saveManyCommit st rid cs) c' := by
  intro cs
  induction cs with
  | nil => exact fun st c' ha hh => ⟨ha, hh⟩
  | cons c cs' ih =>
    intro st c' ha hh
    exact ih (saveManyCommitStep st rid c) c'
      (authorPresent_step st rid c c' ha) (hashPresent_step st rid c c' hh)

/-- Every commit of a processed batch ends up with author and hash rows
present. -/
theorem present_after_saveManyCommit (rid : Int) :
    ∀ (cs : List Commit) (st : ManagerStore) (c : Commit), c ∈ cs →
      authorPresent (saveManyCommit st rid cs) c ∧
      hashPresent (saveManyCommit st rid cs) c := by
  intro cs
  induction cs with
  | nil => intro st c hc; exact absurd hc (List.not_mem_nil c)
  | cons c0 cs' ih =>
    intro st c hc
    rcases List.mem_cons.mp hc with hceq | hcs
    · subst hceq
      obtain ⟨ha, hh⟩ := present_self_step st rid c
      exact present_saveManyCommit_mono rid cs' (saveManyCommitStep st rid c)
        c ha hh
    · exact ih (saveManyCommitStep st rid c0) c hcs

/-- A step of SaveManyCommit for an already-ingested commit is the
identity: the author lookup finds the author and the hash conflict makes
the insert a silent no-op. -/
theorem saveManyCommitStep_id (st : ManagerStore) (rid : Int) (c : Commit)
    (ha : authorPresent st c) (hh : hashPresent st c) :
    saveManyCommitStep st rid c = st := by
  unfold authorPresent at ha
  unfold hashPresent at hh
  unfold saveManyCommitStep
  rw [if_pos ha, if_pos hh]

/-- SaveManyCommit over an entirely already-ingested batch is the
identity. -/
theorem saveManyCommit_id (rid : Int) :
    ∀ (cs : List Commit) (st : ManagerStore),
      (∀ c ∈ cs, authorPresent st c ∧ hashPresent st c) →
      saveManyCommit st rid cs = st := by
  intro cs
  induction cs with
  | nil => intro st _; rfl
  | cons c cs' ih =>
    intro st h
    obtain ⟨ha, hh⟩ := h c (List.mem_cons_self c cs')
    have hstep : saveManyCommitStep st rid c = st :=
      saveManyCommitStep_id st rid c ha hh
    show saveManyCommit (saveManyCommitStep st rid c) rid cs' = st
    rw [hstep]
    exact ih st (fun c' hc' => h c' (List.mem_cons_of_mem _ hc'))

/-- The hash count after one step: unchanged when a row with the commit
hash already exists, otherwise incremented exactly for that hash. -/
theorem countHash_step (st : ManagerStore) (rid : Int) (c : Commit)
    (h : String) :
    countHash (saveManyCommitStep st rid c) h =
      if st.commits.any (fun r => r.hash = c.hash) = true then countHash st h
      else countHash st h + (if c.hash = h then 1 else 0) := by
  unfold countHash saveManyCommitStep
  by_cases hc : st.commits.any (fun r => r.hash = c.hash) = true
  · simp [hc]
  · simp only [if_neg hc, eq_self_iff_true]
    by_cases hch : c.hash = h
    · simp [List.filter_append, hch]
    · simp [List.filter_append, hch]

/-- No row carries the hash exactly when the count is zero. -/
theorem countHash_zero_iff (st : ManagerStore) (h : String) :
    countHash st h = 0 ↔
      st.commits.any (fun r => r.hash = h) = false := by
  unfold countHash
  rw [List.length_eq_zero, List.filter_eq_nil_iff]
  constructor
  · intro hall
    rw [List.any_eq_false]
    intro r hr
    simpa using hall r hr
  · intro hany r hr
    have := List.any_eq_false.mp hany r hr
    simpa using this

/-- The hash count after a SaveManyCommit run: a hash of the batch that had
no row before ends with exactly one row; every other count is untouched. -/
theorem countHash_saveManyCommit (rid : Int) (h : String) :
    ∀ (cs : List Commit) (st : ManagerStore),
      countHash (saveManyCommit st rid cs) h =
        if countHash st h = 0 ∧ h ∈ cs.map (fun c => c.hash) then 1
        else countHash st h := by
  intro cs
  induction cs with
  | nil => intro st; simp [saveManyCommit]
  | cons c cs' ih =>
    intro st
    show countHash (saveManyCommit (saveManyCommitStep st rid c) rid cs') h =
      _
    rw [ih, countHash_step]
    by_cases hany : st.commits.any (fun r => r.hash = c.hash) = true
    · have hnz : ¬ countHash st c.hash = 0 := by
        rw [countHash_zero_iff]
        simp [hany]
      simp only [if_pos hany]
      by_cases hch : h = c.hash
      · subst hch
        simp [hnz]
      · simp [List.mem_cons, hch]
    · have hz : countHash st c.hash = 0 := by
        rw [countHash_zero_iff]
        simpa using hany
      simp only [if_neg hany]
      by_cases hch : c.hash = h
      · subst hch
        rw [hz]
        simp
      · have hch' : ¬ h = c.hash := fun he => hch he.symm
        simp [hch, hch', List.mem_cons]

/-- C1: re-running SaveManyCommit on the identical batch is the identity on
the whole store (every author is found, every hash insert is silently
ignored by the conflict clause), and, starting from a store with at most
one row for a hash of the batch, the double run leaves exactly one stored
row for that hash. Stated at the SaveManyCommit level, the persistence
mechanism the commit ingestion path funnels every new_commits group
through. -/
theorem saveManyCommit_idempotent :
    ∀ (st : ManagerStore) (rid : Int) (cs : List Commit) (h : String),
      countHash st h ≤ 1 → h ∈ cs.map (fun c => c.hash) →
      saveManyCommit (saveManyCommit st rid cs) rid cs =
        saveManyCommit st rid cs ∧
      countHash (saveManyCommit (saveManyCommit st rid cs) rid cs) h = 1 := by
  intro st rid cs h hle hmem
  have hidem : saveManyCommit (saveManyCommit st rid cs) rid cs =
      saveManyCommit st rid cs :=
    saveManyCommit_id rid cs (saveManyCommit st rid cs)
      (fun c hc => present_after_saveManyCommit rid cs st c hc)
  refine ⟨hidem, ?_⟩
  rw [hidem, countHash_saveManyCommit]
  rcases Nat.le_one_iff_eq_zero_or_eq_one.mp hle with hz | ho
  · simp [hz, hmem]
  · have hnz : ¬ countHash st h = 0 := by
      rw [ho]
      exact one_ne_zero
    simp [hnz, ho]

/-- Witness for C1: one commit into the empty store. -/
theorem saveManyCommit_idempotent_witness :
    saveManyCommit (saveManyCommit emptyStore 1 [commitA1]) 1 [commitA1] =
      saveManyCommit emptyStore 1 [commitA1] ∧
    countHash (saveManyCommit (saveManyCommit emptyStore 1 [commitA1]) 1
      [commitA1]) "h1" = 1 :=
  saveManyCommit_idempotent emptyStore 1 [commitA1] "h1" (by decide)
    (by decide)

/-- Receiving a run of commits that keeps the batch strictly below the size
threshold only accumulates them, whatever events follow. -/
theorem commitsResolver_recv_below_threshold (es : List ResolverEvent) :
    ∀ (cs acc : List CommitResult) (pub : List CommitsCommand),
      acc.length + cs.length < batchSize →
      commitsResolver (cs.map .recv ++ es) acc pub =
        commitsResolver es (acc ++ cs) pub := by
  intro cs
  induction cs with
  | nil =>
    intro acc pub _
    simp
  | cons c cs' ih =>
    intro acc pub hlt
    simp only [List.length_cons] at hlt
    have hne : ¬ (acc.length + 1 = batchSize) := by omega
    have hstep :
        commitsResolver ((c :: cs').map .recv ++ es) acc pub =
          commitsResolver (cs'.map .recv ++ es) (acc ++ [c]) pub := by
      simp [commitsResolver, hne]
    rw [hstep, ih (acc ++ [c]) pub (by
      simp only [List.length_append, List.length_cons, List.length_nil]
      omega)]
    simp

/-- Feeding commits whose total exactly reaches the size threshold flushes
once, publishing the accumulated batch and leaving the pending batch
empty. -/
theorem commitsResolver_fill_to_batchSize :
    ∀ (cs acc : List CommitResult) (pub : List CommitsCommand),
      cs ≠ [] → acc.length + cs.length = batchSize →
      commitsResolver (cs.map .recv) acc pub =
        (pub ++ [publishCommitsBatch (acc ++ cs)], []) := by
  intro cs
  induction cs with
  | nil => intro acc pub hne _; exact absurd rfl hne
  | cons c cs' ih =>
    intro acc pub _ hlen
    simp only [List.length_cons] at hlen
    cases cs' with
    | nil =>
      have hfull : acc.length + 1 = batchSize := by
        simp only [List.length_nil] at hlen
        omega
      simp [commitsResolver, hfull]
    | cons c2 cs'' =>
      have hne : ¬ (acc.length + 1 = batchSize) := by
        simp only [List.length_cons] at hlen
        omega
      have hstep :
          commitsResolver ((c :: c2 :: cs'').map .recv) acc pub =
            commitsResolver ((c2 :: cs'').map .recv) (acc ++ [c]) pub := by
        simp [commitsResolver, hne]
      rw [hstep, ih (acc ++ [c]) pub (by simp) (by
        simp only [List.length_append, List.length_cons, List.length_nil]
        simp only [List.length_cons] at hlen
        omega)]
      simp

/-- C9: the commits resolver flushes exactly at the size threshold and on
the idle timeout. Feeding exactly batchSize commits produces one publish
holding those commits and leaves the pending batch empty; feeding a
non-empty run of fewer commits followed by the idle timeout produces one
publish holding exactly those commits. -/
theorem commitsResolver_flush_thresholds :
    (∀ cs : List CommitResult, cs.length = batchSize →
       commitsResolver (cs.map .recv) [] [] =
         ([publishCommitsBatch cs], [])) ∧
    (∀ cs : List CommitResult, 0 < cs.length → cs.length < batchSize →
       commitsResolver (cs.map .recv ++ [.timeout]) [] [] =
         ([publishCommitsBatch cs], [])) := by
  constructor
  · intro cs hlen
    have hne : cs ≠ [] := by
      intro h
      rw [h] at hlen
      simp [batchSize] at hlen
    have := commitsResolver_fill_to_batchSize cs [] [] hne
      (by simpa using hlen)
    simpa using this
  · intro cs hpos hlt
    rw [commitsResolver_recv_below_threshold [.timeout] cs [] []
      (by simpa using hlt)]
    cases cs with
    | nil => simp at hpos
    | cons c cs' => simp [commitsResolver]

/-- Witness for C9: one hundred identical results flush at the threshold;
a single result flushes on the idle timeout. -/
theorem commitsResolver_flush_thresholds_witness :
    commitsResolver ((List.replicate 100 sampleResult).map .recv) [] [] =
      ([publishCommitsBatch (List.replicate 100 sampleResult)], []) ∧
    commitsResolver ([sampleResult].map .recv ++ [.timeout]) [] [] =
      ([publishCommitsBatch [sampleResult]], []) := by
  constructor
  · exact commitsResolver_flush_thresholds.1 (List.replicate 100 sampleResult)
      (by simp [batchSize])
  · exact commitsResolver_flush_thresholds.2 [sampleResult] (by decide)
      (by decide)

/-- Every command the resolver hands to the publisher carries a non-empty
commit list, as long as those already published do. -/
theorem commitsResolver_published_nonempty :
    ∀ (es : List ResolverEvent) (acc : List CommitResult)
      (pub : List CommitsCommand),
      (∀ cmd ∈ pub, cmd.payload.commits ≠ []) →
      ∀ cmd ∈ (commitsResolver es acc pub).1, cmd.payload.commits ≠ [] := by
  intro es
  induction es with
  | nil => intro acc pub hpub; exact hpub
  | cons e rest ih =>
    intro acc pub hpub
    have hpush : ∀ (b : List CommitResult), b ≠ [] →
        ∀ cmd ∈ pub ++ [publishCommitsBatch b],
          cmd.payload.commits ≠ [] := by
      intro b hb cmd hcmd
      rcases List.mem_append.mp hcmd with hin | hone
      · exact hpub cmd hin
      · have : cmd = publishCommitsBatch b := by simpa using hone
        subst this
        simp [publishCommitsBatch, hb]
    cases e with
    | recv c =>
      by_cases hfull : acc.length + 1 = batchSize
      · have hstep : commitsResolver (ResolverEvent.recv c :: rest) acc pub =
            commitsResolver rest []
              (pub ++ [publishCommitsBatch (acc ++ [c])]) := by
          simp [commitsResolver, hfull]
        rw [hstep]
        exact ih [] _ (hpush (acc ++ [c]) (by simp))
      · have hstep : commitsResolver (ResolverEvent.recv c :: rest) acc pub =
            commitsResolver rest (acc ++ [c]) pub := by
          simp [commitsResolver, hfull]
        rw [hstep]
        exact ih (acc ++ [c]) pub hpub
    | timeout =>
      by_cases hemp : acc = []
      · have hstep : commitsResolver (ResolverEvent.timeout :: rest) acc pub =
            commitsResolver rest acc pub := by
          simp [commitsResolver, hemp]
        rw [hstep]
        exact ih acc pub hpub
      · have hstep : commitsResolver (ResolverEvent.timeout :: rest) acc pub =
            commitsResolver rest []
              (pub ++ [publishCommitsBatch acc]) := by
          simp [commitsResolver, hemp]
        rw [hstep]
        exact ih [] _ (hpush acc hemp)
    | close =>
      by_cases hemp : acc = []
      · have hstep : (commitsResolver (ResolverEvent.close :: rest) acc
            pub).1 = pub := by
          simp [commitsResolver, hemp]
        rw [hstep]
        exact hpub
      · have hstep : (commitsResolver (ResolverEvent.close :: rest) acc
            pub).1 = pub ++ [publishCommitsBatch acc] := by
          simp [commitsResolver, hemp]
        rw [hstep]
        exact hpush acc hemp
    | cancel =>
      by_cases hemp : acc = []
      · have hstep : (commitsResolver (ResolverEvent.cancel :: rest) acc
            pub).1 = pub := by
          simp [commitsResolver, hemp]
        rw [hstep]
        exact hpub
      · have hstep : (commitsResolver (ResolverEvent.cancel :: rest) acc
            pub).1 = pub ++ [publishCommitsBatch acc] := by
          simp [commitsResolver, hemp]
        rw [hstep]
        exact hpush acc hemp

/-- C10: the harvester never publishes an empty new_commits command: the
size-threshold flush publishes a batch of length batchSize and every other
flush is guarded by a non-empty-batch check, so each command handed to
publishCommitsBatch holds at least one commit. -/
theorem newCommits_never_empty :
    ∀ (es : List ResolverEvent) (cmd : CommitsCommand),
      cmd ∈ (commitsResolver es [] []).1 →
      cmd.payload.commits ≠ [] := by
  intro es cmd hm
  exact commitsResolver_published_nonempty es [] []
    (by intro c hc; simp at hc) cmd hm

/-- Witness for C10: the idle-timeout flush of a single received commit. -/
theorem newCommits_never_empty_witness :
    publishCommitsBatch [sampleResult] ∈
      (commitsResolver [.recv sampleResult, .timeout] [] []).1 ∧
    (publishCommitsBatch [sampleResult]).payload.commits ≠ [] := by
  have hm : publishCommitsBatch [sampleResult] ∈
      (commitsResolver [.recv sampleResult, .timeout] [] []).1 := by
    decide
  exact ⟨hm, newCommits_never_empty [.recv sampleResult, .timeout]
    (publishCommitsBatch [sampleResult]) hm⟩

end GitIndexer
